import Mathlib

/-!
Shallow embedding of `src/main.rs` from `tngsk/plotlyrs-graph-study`.

The numeric core of the program is `SignalParams::new` (lines 17-28) and
`create_sine_wave` (lines 93-134).  The Rust code computes with `f64`; the
embedding models the ideal real-number semantics of those formulas: time
values (which the code derives purely from integer indices and the rational
sampling interval `dt = 1/sampling_rate`) are kept as exact rationals `ℚ`,
amplitude values (which involve `exp` and `sin`) are real numbers `ℝ`.
`f64::round` rounds half away from zero, which `f64_round` mirrors; the cast
`as i64` truncates toward zero, which `f64toI64` mirrors; `2u32.pow`
wraps modulo 2^32 on overflow (release-profile semantics), which
`amplitude_levels` mirrors.
-/

namespace PlotlyrsGraphStudy

/-- `SignalParams` struct, `src/main.rs` lines 8-15.  `signal_freq : f64`,
`sampling_rate : i64`, `bit_depth : u32`, `nyquist_ratio : f64`. -/
structure SignalParams where
  name : String
  signal_freq : ℚ
  sampling_rate : ℤ
  bit_depth : ℕ
  nyquist_ratio : ℚ

/-- `SignalParams::new`, `src/main.rs` lines 18-27:
`nyquist_ratio = (2.0 * signal_freq) / (sampling_rate as f64)`. -/
def SignalParams.new (name : String) (signal_freq : ℚ) (sampling_rate : ℤ)
    (bit_depth : ℕ) : SignalParams :=
  { name := name
    signal_freq := signal_freq
    sampling_rate := sampling_rate
    bit_depth := bit_depth
    nyquist_ratio := 2 * signal_freq / (sampling_rate : ℚ) }

/-- The Rust cast `f64 as i64` truncates toward zero. -/
def f64toI64 (q : ℚ) : ℤ := if 0 ≤ q then ⌊q⌋ else ⌈q⌉

open Classical in
/-- `f64::round`: round to nearest integer, ties away from zero. -/
noncomputable def f64_round (x : ℝ) : ℤ :=
  if 0 ≤ x then ⌊x + 1 / 2⌋ else -⌊-x + 1 / 2⌋

/-- `2u32.pow(bit_depth) as f64`, `src/main.rs` line 120.  `u32`
exponentiation wraps modulo `2^32` on overflow. -/
def amplitude_levels (bit_depth : ℕ) : ℚ := ((2 ^ bit_depth % 2 ^ 32 : ℕ) : ℚ)

/-- The damped-sine expression inlined at `src/main.rs` lines 113-116 and
127-128: `(-decay_rate * t).exp() * (2.0 * PI * signal_freq * t).sin()`
with `decay_rate = 0.5` (line 109). -/
noncomputable def damped_sine (signal_freq : ℚ) (t : ℚ) : ℝ :=
  Real.exp (-(1 / 2) * (t : ℝ)) * Real.sin (2 * Real.pi * (signal_freq : ℝ) * (t : ℝ))

/-- The quantization expression at `src/main.rs` line 129:
`(raw_sin * amplitude_levels / 2.0).round() / (amplitude_levels / 2.0)`. -/
noncomputable def quantize (levels : ℚ) (v : ℝ) : ℝ :=
  ((f64_round (v * (levels : ℝ) / 2) : ℤ) : ℝ) / ((levels : ℝ) / 2)

/-- `create_sine_wave`, `src/main.rs` lines 93-134.  Returns
`(continuous_x, continuous_y, sample_x, sample_y)`. -/
noncomputable def create_sine_wave (params : SignalParams) :
    List ℚ × List ℝ × List ℚ × List ℝ :=
  let dt : ℚ := 1 / (params.sampling_rate : ℚ)
  let time_range : ℚ := 2
  let num_samples : ℤ := f64toI64 (time_range * (params.sampling_rate : ℚ))
  let interpolation_factor : ℤ := 20
  let continuous_points : ℤ := num_samples * interpolation_factor
  let continuous_x : List ℚ :=
    ((List.range continuous_points.toNat).map
      (fun i : ℕ => (i : ℚ) * dt / (interpolation_factor : ℚ))).takeWhile
      (fun t => t ≤ time_range)
  let continuous_y : List ℝ := continuous_x.map (fun t => damped_sine params.signal_freq t)
  let levels : ℚ := amplitude_levels params.bit_depth
  let sample_x : List ℚ := (List.range num_samples.toNat).map (fun i : ℕ => (i : ℚ) * dt)
  let sample_y : List ℝ :=
    sample_x.map (fun t => quantize levels (damped_sine params.signal_freq t))
  (continuous_x, continuous_y, sample_x, sample_y)

/-! ### Helper lemmas about the embedded primitives -/

theorem f64toI64_two_mul (r : ℤ) (hr : 0 < r) : f64toI64 (2 * (r : ℚ)) = 2 * r := by
  have h : (2 : ℚ) * (r : ℚ) = ((2 * r : ℤ) : ℚ) := by push_cast; ring
  rw [f64toI64, h, if_pos (by exact_mod_cast (by omega : (0:ℤ) ≤ 2 * r)), Int.floor_intCast]

theorem f64_round_intCast (n : ℤ) : f64_round ((n : ℝ)) = n := by
  unfold f64_round
  have h12 : ⌊(1 / 2 : ℝ)⌋ = 0 := by
    rw [Int.floor_eq_zero_iff]
    constructor <;> norm_num
  split_ifs with h
  · rw [Int.floor_int_add, h12, add_zero]
  · rw [show -(n : ℝ) = ((-n : ℤ) : ℝ) by push_cast; ring, Int.floor_int_add, h12, add_zero,
      neg_neg]

theorem f64_round_zero : f64_round 0 = 0 := by
  have := f64_round_intCast 0
  simpa using this

theorem abs_f64_round_le (M : ℤ) (x : ℝ) (h : |x| ≤ (M : ℝ)) : |f64_round x| ≤ M := by
  obtain ⟨hlo, hhi⟩ := abs_le.mp h
  unfold f64_round
  split_ifs with hx
  · have h1 : (0 : ℤ) ≤ ⌊x + 1 / 2⌋ := Int.le_floor.mpr (by push_cast; linarith)
    have h2 : ⌊x + 1 / 2⌋ < M + 1 := Int.floor_lt.mpr (by push_cast; linarith)
    rw [abs_of_nonneg h1]
    omega
  · push_neg at hx
    have h1 : (0 : ℤ) ≤ ⌊-x + 1 / 2⌋ := Int.le_floor.mpr (by push_cast; linarith)
    have h2 : ⌊-x + 1 / 2⌋ < M + 1 := Int.floor_lt.mpr (by push_cast; linarith)
    rw [abs_neg, abs_of_nonneg h1]
    omega

theorem one_le_f64_round (x : ℝ) (hx : 1 ≤ x) : 1 ≤ f64_round x := by
  unfold f64_round
  rw [if_pos (by linarith)]
  exact Int.le_floor.mpr (by push_cast; linarith)

theorem quantize_zero_levels (v : ℝ) : quantize 0 v = 0 := by
  simp [quantize, f64_round_zero]

theorem quantize_quantize (levels : ℚ) (c : ℤ) (hc : ((levels : ℝ) / 2) = (c : ℝ))
    (hc0 : (c : ℝ) ≠ 0) (v : ℝ) : quantize levels (quantize levels v) = quantize levels v := by
  unfold quantize
  have harg : (((f64_round (v * (levels : ℝ) / 2) : ℤ) : ℝ) / ((levels : ℝ) / 2)) *
      (levels : ℝ) / 2 = ((f64_round (v * (levels : ℝ) / 2) : ℤ) : ℝ) := by
    rw [mul_div_assoc, hc, div_mul_cancel₀ _ hc0]
  rw [harg, f64_round_intCast]

theorem amplitude_levels_eq_pow (b : ℕ) (hb : b ≤ 31) : amplitude_levels b = (2 : ℚ) ^ b := by
  unfold amplitude_levels
  rw [Nat.mod_eq_of_lt (Nat.pow_lt_pow_right (by norm_num) (by omega))]
  push_cast
  ring

theorem abs_damped_sine_le_one (f t : ℚ) (ht : (0 : ℚ) ≤ t) : |damped_sine f t| ≤ 1 := by
  unfold damped_sine
  rw [abs_mul, abs_of_pos (Real.exp_pos _)]
  have he : Real.exp (-(1 / 2) * (t : ℝ)) ≤ 1 := by
    rw [Real.exp_le_one_iff]
    have : (0 : ℝ) ≤ (t : ℝ) := by exact_mod_cast ht
    nlinarith
  have hs : |Real.sin (2 * Real.pi * (f : ℝ) * (t : ℝ))| ≤ 1 :=
    abs_le.mpr ⟨Real.neg_one_le_sin _, Real.sin_le_one _⟩
  calc Real.exp (-(1 / 2) * (t : ℝ)) * |Real.sin (2 * Real.pi * (f : ℝ) * (t : ℝ))| ≤
      1 * 1 := by
        exact mul_le_mul he hs (abs_nonneg _) (by norm_num)
    _ = 1 := by norm_num

theorem pow_div_two_eq (b : ℕ) (hb : 1 ≤ b) :
    (((2 : ℚ) ^ b : ℚ) : ℝ) / 2 = (((2 : ℤ) ^ (b - 1) : ℤ) : ℝ) := by
  push_cast
  have h : (2 : ℝ) ^ b = 2 ^ (b - 1) * 2 := by
    rw [← pow_succ]
    congr 1
    omega
  rw [h]
  ring

theorem abs_quantize_pow_le_one (b : ℕ) (hb : 1 ≤ b) (v : ℝ) (hv : |v| ≤ 1) :
    |quantize ((2 : ℚ) ^ b) v| ≤ 1 := by
  unfold quantize
  rw [mul_div_assoc, pow_div_two_eq b hb]
  set M : ℤ := (2 : ℤ) ^ (b - 1) with hM
  have hMpos : (0 : ℝ) < (M : ℝ) := by
    rw [hM]; push_cast; positivity
  have harg : |v * (M : ℝ)| ≤ (M : ℝ) := by
    rw [abs_mul, abs_of_pos hMpos]
    nlinarith [abs_nonneg v]
  have hn := abs_f64_round_le M _ harg
  rw [abs_div, abs_of_pos hMpos, div_le_one hMpos]
  exact_mod_cast hn

theorem amplitude_levels_thirtytwo : amplitude_levels 32 = 0 := by
  unfold amplitude_levels
  norm_num

theorem continuous_y_eq_map (p : SignalParams) :
    (create_sine_wave p).2.1 =
      ((create_sine_wave p).1).map (fun t => damped_sine p.signal_freq t) := rfl

theorem sample_y_eq_map (p : SignalParams) :
    (create_sine_wave p).2.2.2 = ((create_sine_wave p).2.2.1).map
      (fun t => quantize (amplitude_levels p.bit_depth) (damped_sine p.signal_freq t)) := rfl

theorem mem_sample_x_shape (p : SignalParams) (t : ℚ)
    (ht : t ∈ (create_sine_wave p).2.2.1) :
    ∃ i : ℕ, t = (i : ℚ) * (1 / (p.sampling_rate : ℚ)) := by
  simp only [create_sine_wave, List.mem_map, List.mem_range] at ht
  obtain ⟨i, _, h⟩ := ht
  exact ⟨i, h.symm⟩

theorem mem_continuous_x_shape (p : SignalParams) (t : ℚ)
    (ht : t ∈ (create_sine_wave p).1) :
    ∃ i : ℕ, t = (i : ℚ) * (1 / (p.sampling_rate : ℚ)) / ((20 : ℤ) : ℚ) := by
  have ht2 : t ∈ (List.range ((f64toI64 (2 * (p.sampling_rate : ℚ)) * 20).toNat)).map
      (fun i : ℕ => (i : ℚ) * (1 / (p.sampling_rate : ℚ)) / ((20 : ℤ) : ℚ)) :=
    (List.takeWhile_sublist _).mem ht
  obtain ⟨i, _, h⟩ := List.mem_map.mp ht2
  exact ⟨i, h.symm⟩

theorem sample_x_nonneg (p : SignalParams) (hr : 0 < p.sampling_rate) (t : ℚ)
    (ht : t ∈ (create_sine_wave p).2.2.1) : 0 ≤ t := by
  obtain ⟨i, rfl⟩ := mem_sample_x_shape p t ht
  have hrq : (0 : ℚ) < (p.sampling_rate : ℚ) := by exact_mod_cast hr
  positivity

theorem continuous_x_nonneg (p : SignalParams) (hr : 0 < p.sampling_rate) (t : ℚ)
    (ht : t ∈ (create_sine_wave p).1) : 0 ≤ t := by
  obtain ⟨i, rfl⟩ := mem_continuous_x_shape p t ht
  have hrq : (0 : ℚ) < (p.sampling_rate : ℚ) := by exact_mod_cast hr
  positivity

/-! ### Claim theorems -/

/-- C2: for every SignalParameters, `nyquist_ratio` equals
`2 * signal_freq / sampling_rate`, computed at construction.  The embedding
is immutable and no operation in the program writes to the field after
`SignalParams::new`, so the value is invariant thereafter.  In particular
`signal_freq = 10, sampling_rate = 8` gives `5/2 = 2.5` and
`sampling_rate = 240` gives `1/12 ≈ 0.0833`. -/
theorem nyquist_ratio_eq :
    (∀ (name : String) (f : ℚ) (r : ℤ) (b : ℕ),
      (SignalParams.new name f r b).nyquist_ratio = 2 * f / (r : ℚ)) ∧
    (SignalParams.new "Severe Aliasing" 10 8 16).nyquist_ratio = 5 / 2 ∧
    (SignalParams.new "Hi Resolution" 10 240 16).nyquist_ratio = 1 / 12 := by
  refine ⟨fun name f r b => rfl, ?_, ?_⟩ <;> norm_num [SignalParams.new]

/-- C5 counterexample: constructing SignalParameters with invalid numeric
input (here a negative frequency, a zero sampling rate and bit depth 0) does
NOT fail: `SignalParams::new` performs no validation and happily returns a
value whose `nyquist_ratio` is the junk result of dividing by zero (`0` in
the exact-rational model of `f64` division; `NaN`/`∞` in `f64` itself). -/
theorem new_accepts_invalid_input :
    SignalParams.new "bad" (-1) 0 0 =
      { name := "bad", signal_freq := -1, sampling_rate := 0, bit_depth := 0,
        nyquist_ratio := 0 } := by
  rw [SignalParams.new]
  norm_num

/-- C5 amended: construction never fails and performs no validation: for all
inputs, including non-positive frequency and rate and a degenerate bit depth,
`SignalParams::new` just stores its arguments and the unchecked quotient
`2 * signal_freq / sampling_rate`. -/
theorem new_never_fails :
    ∀ (name : String) (f : ℚ) (r : ℤ) (b : ℕ),
      SignalParams.new name f r b =
        { name := name, signal_freq := f, sampling_rate := r, bit_depth := b,
          nyquist_ratio := 2 * f / (r : ℚ) } :=
  fun name f r b => rfl

/-- C6 counterexample: at `bit_depth = 32`, which the contract range `[1, 32]`
admits, `2u32.pow(bit_depth)` overflows `u32`: the computed
`amplitude_levels` is `2^32 mod 2^32 = 0`, not `2^32`, so the overflow case
is reachable under the stated precondition. -/
theorem amplitude_levels_overflow_at_32 :
    amplitude_levels 32 = 0 ∧ amplitude_levels 32 ≠ (2 : ℚ) ^ (32 : ℕ) := by
  constructor
  · unfold amplitude_levels
    norm_num
  · unfold amplitude_levels
    norm_num

/-- C6 amended: for every `bit_depth` in `[1, 31]`, `2 ^ bit_depth` is
representable in `u32` (no overflow), and the synthesizer's
`amplitude_levels` equals the exact `2 ^ bit_depth`. -/
theorem amplitude_levels_no_overflow (b : ℕ) (hb1 : 1 ≤ b) (hb2 : b ≤ 31) :
    (2 : ℕ) ^ b < 2 ^ 32 ∧ amplitude_levels b = (2 : ℚ) ^ b :=
  ⟨Nat.pow_lt_pow_right (by norm_num) (by omega), amplitude_levels_eq_pow b hb2⟩

/-- C6 witness: the amended bound instantiated at the largest admissible
bit depth, 31. -/
theorem amplitude_levels_no_overflow_witness :
    1 ≤ 31 ∧ 31 ≤ 31 ∧ ((2 : ℕ) ^ 31 < 2 ^ 32 ∧ amplitude_levels 31 = (2 : ℚ) ^ 31) :=
  ⟨by decide, by decide, amplitude_levels_no_overflow 31 (by decide) (by decide)⟩

/-- C7: the synthesizer is deterministic and depends only on the numeric
parameter values: any two SignalParameters agreeing on `signal_freq`,
`sampling_rate` and `bit_depth` (the only fields `create_sine_wave` reads)
produce identical output arrays. -/
theorem create_sine_wave_deterministic (p q : SignalParams)
    (hf : p.signal_freq = q.signal_freq) (hr : p.sampling_rate = q.sampling_rate)
    (hb : p.bit_depth = q.bit_depth) : create_sine_wave p = create_sine_wave q := by
  unfold create_sine_wave
  rw [hf, hr, hb]

/-- C7 witness: two distinct constructions with identical numeric parameters
(only the label differs) yield identical output arrays. -/
theorem create_sine_wave_deterministic_witness :
    (SignalParams.new "a" 10 8 16).signal_freq = (SignalParams.new "b" 10 8 16).signal_freq ∧
    (SignalParams.new "a" 10 8 16).sampling_rate = (SignalParams.new "b" 10 8 16).sampling_rate ∧
    (SignalParams.new "a" 10 8 16).bit_depth = (SignalParams.new "b" 10 8 16).bit_depth ∧
    create_sine_wave (SignalParams.new "a" 10 8 16) =
      create_sine_wave (SignalParams.new "b" 10 8 16) :=
  ⟨rfl, rfl, rfl,
    create_sine_wave_deterministic (SignalParams.new "a" 10 8 16)
      (SignalParams.new "b" 10 8 16) rfl rfl rfl⟩

/-- C8: quantization is idempotent: for every `bit_depth` in `[1, 32]`, the
quantization map `v ↦ round(v * 2^bit_depth / 2) / (2^bit_depth / 2)`
applied to one of its own outputs returns it unchanged. -/
theorem quantize_idem (b : ℕ) (hb1 : 1 ≤ b) (hb2 : b ≤ 32) (v : ℝ) :
    quantize ((2 : ℚ) ^ b) (quantize ((2 : ℚ) ^ b) v) = quantize ((2 : ℚ) ^ b) v := by
  refine quantize_quantize ((2 : ℚ) ^ b) ((2 : ℤ) ^ (b - 1)) (pow_div_two_eq b hb1) ?_ v
  push_cast
  positivity

/-- C8 witness: idempotence instantiated at `bit_depth = 1` and the input
`37/100`. -/
theorem quantize_idem_witness :
    1 ≤ 1 ∧ 1 ≤ 32 ∧
    quantize ((2 : ℚ) ^ (1 : ℕ)) (quantize ((2 : ℚ) ^ (1 : ℕ)) ((37 : ℝ) / 100)) =
      quantize ((2 : ℚ) ^ (1 : ℕ)) ((37 : ℝ) / 100) :=
  ⟨by decide, by decide, quantize_idem 1 (by decide) (by decide) ((37 : ℝ) / 100)⟩

/-- C3: for every valid SignalParameters (window fixed at 2.0 s), the sampled
series has exactly `floor(window * sampling_rate)` elements, with
`sample_x[i] = i * (1 / sampling_rate)`. -/
theorem sample_series_length_and_times (p : SignalParams) (hr : 0 < p.sampling_rate) :
    ((create_sine_wave p).2.2.1).length = (⌊(2 : ℚ) * (p.sampling_rate : ℚ)⌋).toNat ∧
    ∀ i (h : i < ((create_sine_wave p).2.2.1).length),
      ((create_sine_wave p).2.2.1).get ⟨i, h⟩ = (i : ℚ) * (1 / (p.sampling_rate : ℚ)) := by
  have hfl : f64toI64 (2 * (p.sampling_rate : ℚ)) = ⌊(2 : ℚ) * (p.sampling_rate : ℚ)⌋ := by
    rw [f64toI64_two_mul p.sampling_rate hr,
      show (2 : ℚ) * (p.sampling_rate : ℚ) = ((2 * p.sampling_rate : ℤ) : ℚ) by push_cast; ring,
      Int.floor_intCast]
  constructor
  · simp only [create_sine_wave, List.length_map, List.length_range]
    rw [hfl]
  · intro i h
    simp only [create_sine_wave, List.get_eq_getElem, List.getElem_map, List.getElem_range]

unseal Rat.add Rat.mul Rat.inv Rat.sub in
/-- C3 witness: at `signal_freq = 10, sampling_rate = 8, bit_depth = 16` the
sampled series has 16 elements, `[0, 0.125, 0.25, ..., 1.875]`. -/
theorem sample_series_length_and_times_witness :
    0 < (SignalParams.new "Severe Aliasing" 10 8 16).sampling_rate ∧
    ((create_sine_wave (SignalParams.new "Severe Aliasing" 10 8 16)).2.2.1).length = 16 ∧
    (create_sine_wave (SignalParams.new "Severe Aliasing" 10 8 16)).2.2.1 =
      [0, 1/8, 1/4, 3/8, 1/2, 5/8, 3/4, 7/8, 1, 9/8, 5/4, 11/8, 3/2, 13/8, 7/4, 15/8] := by
  refine ⟨by decide, ?_, by decide⟩
  have h := (sample_series_length_and_times (SignalParams.new "Severe Aliasing" 10 8 16)
    (by decide)).1
  rw [h]
  decide

unseal Rat.add Rat.mul Rat.inv Rat.sub in
/-- C4 counterexample: at `sampling_rate = 1` (window 2.0 s, interpolation
factor 20) the continuous series has `floor(2 * 1 * 20) = 40` elements, not
`floor(2 * 1 * 20) + 1 = 41`: the boundary point `t = 2` is never generated,
because the index range `0 ..< num_samples * 20` stops one fine step short
of the window. -/
theorem continuous_series_length_counterexample :
    ((create_sine_wave (SignalParams.new "Slow" 10 1 16)).1).length ≠
      (⌊(2 : ℚ) * ((SignalParams.new "Slow" 10 1 16).sampling_rate : ℚ) * 20⌋ + 1).toNat := by
  decide

/-- C4 amended: for every valid SignalParameters (window 2.0 s, interpolation
factor 20), the continuous series has exactly
`floor(window * sampling_rate * interpolation_factor)` elements (no `+ 1`),
and every generated time point is strictly below the window boundary
`t = 2`, which is therefore never included. -/
theorem continuous_series_length (p : SignalParams) (hr : 0 < p.sampling_rate) :
    ((create_sine_wave p).1).length =
      (⌊(2 : ℚ) * (p.sampling_rate : ℚ) * 20⌋).toNat ∧
    ∀ t ∈ (create_sine_wave p).1, t < 2 := by
  have hrq : (0 : ℚ) < (p.sampling_rate : ℚ) := by exact_mod_cast hr
  have hN : f64toI64 (2 * (p.sampling_rate : ℚ)) * 20 = 2 * p.sampling_rate * 20 := by
    rw [f64toI64_two_mul p.sampling_rate hr]
  have helt : ∀ i : ℕ, (i : ℤ) < 2 * p.sampling_rate * 20 →
      (i : ℚ) * (1 / (p.sampling_rate : ℚ)) / ((20 : ℤ) : ℚ) < 2 := by
    intro i hi
    have hiq : (i : ℚ) < 2 * (p.sampling_rate : ℚ) * 20 := by exact_mod_cast hi
    rw [div_lt_iff (by norm_num), mul_one_div, div_lt_iff hrq]
    push_cast
    linarith
  have hmem : ∀ x ∈ (List.range ((f64toI64 (2 * (p.sampling_rate : ℚ)) * 20).toNat)).map
      (fun i : ℕ => (i : ℚ) * (1 / (p.sampling_rate : ℚ)) / ((20 : ℤ) : ℚ)), x < 2 := by
    intro x hx
    obtain ⟨i, hi, rfl⟩ := List.mem_map.mp hx
    refine helt i ?_
    have := List.mem_range.mp hi
    omega
  have hself : ((List.range ((f64toI64 (2 * (p.sampling_rate : ℚ)) * 20).toNat)).map
      (fun i : ℕ => (i : ℚ) * (1 / (p.sampling_rate : ℚ)) / ((20 : ℤ) : ℚ))).takeWhile
        (fun t => t ≤ 2) =
      (List.range ((f64toI64 (2 * (p.sampling_rate : ℚ)) * 20).toNat)).map
        (fun i : ℕ => (i : ℚ) * (1 / (p.sampling_rate : ℚ)) / ((20 : ℤ) : ℚ)) := by
    rw [List.takeWhile_eq_self_iff]
    intro x hx
    exact decide_eq_true (le_of_lt (hmem x hx))
  constructor
  · show (((List.range ((f64toI64 (2 * (p.sampling_rate : ℚ)) * 20).toNat)).map
        (fun i : ℕ => (i : ℚ) * (1 / (p.sampling_rate : ℚ)) / ((20 : ℤ) : ℚ))).takeWhile
          (fun t => t ≤ 2)).length = _
    rw [hself, List.length_map, List.length_range, hN]
    congr 1
    rw [show (2 : ℚ) * (p.sampling_rate : ℚ) * 20 = ((2 * p.sampling_rate * 20 : ℤ) : ℚ) by
      push_cast; ring, Int.floor_intCast]
  · intro t ht
    have ht2 : t ∈ (List.range ((f64toI64 (2 * (p.sampling_rate : ℚ)) * 20).toNat)).map
        (fun i : ℕ => (i : ℚ) * (1 / (p.sampling_rate : ℚ)) / ((20 : ℤ) : ℚ)) :=
      (List.takeWhile_sublist _).mem ht
    exact hmem t ht2

unseal Rat.add Rat.mul Rat.inv Rat.sub in
/-- C4 witness: the amended length formula at `sampling_rate = 1`: exactly 40
continuous points. -/
theorem continuous_series_length_witness :
    0 < (SignalParams.new "Slow2" 10 1 16).sampling_rate ∧
    ((create_sine_wave (SignalParams.new "Slow2" 10 1 16)).1).length = 40 := by
  refine ⟨by decide, ?_⟩
  have h := (continuous_series_length (SignalParams.new "Slow2" 10 1 16) (by decide)).1
  rw [h]
  decide

/-- C9: for every valid SignalParameters with `bit_depth = 1`,
`amplitude_levels = 2` and every element of the sampled output is one of
`-1`, `0`, `1`. -/
theorem bit_depth_one_three_levels (p : SignalParams) (hr : 0 < p.sampling_rate)
    (hb : p.bit_depth = 1) :
    amplitude_levels p.bit_depth = 2 ∧
    ∀ y ∈ (create_sine_wave p).2.2.2, y = -1 ∨ y = 0 ∨ y = 1 := by
  have hl : amplitude_levels p.bit_depth = 2 := by
    rw [hb, amplitude_levels_eq_pow 1 (by norm_num)]
    norm_num
  refine ⟨hl, ?_⟩
  intro y hy
  rw [sample_y_eq_map] at hy
  obtain ⟨t, htmem, rfl⟩ := List.mem_map.mp hy
  have ht0 : (0 : ℚ) ≤ t := sample_x_nonneg p hr t htmem
  have hraw := abs_damped_sine_le_one p.signal_freq t ht0
  rw [hl]
  have hq : quantize 2 (damped_sine p.signal_freq t) =
      ((f64_round (damped_sine p.signal_freq t) : ℤ) : ℝ) := by
    unfold quantize
    push_cast
    norm_num
  rw [hq]
  have hn := abs_f64_round_le 1 (damped_sine p.signal_freq t) (by simpa using hraw)
  have h3 : f64_round (damped_sine p.signal_freq t) = -1 ∨
      f64_round (damped_sine p.signal_freq t) = 0 ∨
      f64_round (damped_sine p.signal_freq t) = 1 := by
    have := abs_le.mp hn
    omega
  rcases h3 with h | h | h <;> simp [h]

/-- C9 witness: the three-level property instantiated at
`signal_freq = 10, sampling_rate = 8, bit_depth = 1`. -/
theorem bit_depth_one_three_levels_witness :
    0 < (SignalParams.new "OneBit" 10 8 1).sampling_rate ∧
    (SignalParams.new "OneBit" 10 8 1).bit_depth = 1 ∧
    (amplitude_levels (SignalParams.new "OneBit" 10 8 1).bit_depth = 2 ∧
      ∀ y ∈ (create_sine_wave (SignalParams.new "OneBit" 10 8 1)).2.2.2,
        y = -1 ∨ y = 0 ∨ y = 1) :=
  ⟨by decide, rfl, bit_depth_one_three_levels (SignalParams.new "OneBit" 10 8 1)
    (by decide) rfl⟩

/-- C10: output amplitudes are bounded for every valid SignalParameters
(positive sampling rate; bit depth in the representable range `[1, 31]`):
every continuous amplitude lies in `[-1, 1]` and every quantized sampled
amplitude lies in `[-1, 1]`. -/
theorem output_amplitudes_bounded (p : SignalParams) (hr : 0 < p.sampling_rate)
    (hb1 : 1 ≤ p.bit_depth) (hb2 : p.bit_depth ≤ 31) :
    (∀ y ∈ (create_sine_wave p).2.1, -1 ≤ y ∧ y ≤ 1) ∧
    (∀ y ∈ (create_sine_wave p).2.2.2, -1 ≤ y ∧ y ≤ 1) := by
  constructor
  · intro y hy
    rw [continuous_y_eq_map] at hy
    obtain ⟨t, htmem, rfl⟩ := List.mem_map.mp hy
    have ht0 : (0 : ℚ) ≤ t := continuous_x_nonneg p hr t htmem
    exact abs_le.mp (abs_damped_sine_le_one p.signal_freq t ht0)
  · intro y hy
    rw [sample_y_eq_map] at hy
    obtain ⟨t, htmem, rfl⟩ := List.mem_map.mp hy
    have ht0 : (0 : ℚ) ≤ t := sample_x_nonneg p hr t htmem
    rw [amplitude_levels_eq_pow p.bit_depth hb2]
    exact abs_le.mp (abs_quantize_pow_le_one p.bit_depth hb1 _
      (abs_damped_sine_le_one p.signal_freq t ht0))

/-- C10 witness: the amplitude bounds instantiated at
`signal_freq = 10, sampling_rate = 8, bit_depth = 16`. -/
theorem output_amplitudes_bounded_witness :
    0 < (SignalParams.new "Severe Aliasing" 10 8 16).sampling_rate ∧
    1 ≤ (SignalParams.new "Severe Aliasing" 10 8 16).bit_depth ∧
    (SignalParams.new "Severe Aliasing" 10 8 16).bit_depth ≤ 31 ∧
    ((∀ y ∈ (create_sine_wave (SignalParams.new "Severe Aliasing" 10 8 16)).2.1,
        -1 ≤ y ∧ y ≤ 1) ∧
      (∀ y ∈ (create_sine_wave (SignalParams.new "Severe Aliasing" 10 8 16)).2.2.2,
        -1 ≤ y ∧ y ≤ 1)) :=
  ⟨by decide, by decide, by decide,
    output_amplitudes_bounded (SignalParams.new "Severe Aliasing" 10 8 16)
      (by decide) (by decide) (by decide)⟩

unseal Rat.add Rat.mul Rat.inv Rat.sub in
/-- C1 counterexample: at `bit_depth = 32` — admitted by the claimed range
`[1, 32]` — the sampled output does NOT equal
`round(raw * 2^bit_depth / 2) / (2^bit_depth / 2)`: the code computes
`amplitude_levels` in `u32`, where `2^32` wraps to `0`, so every sampled
value degenerates (to `round(0)/0`, i.e. `NaN` in `f64`, `0` in the real
model) while the claimed formula gives a nonzero value at `t = 1/8`. -/
theorem sampled_formula_counterexample :
    (create_sine_wave (SignalParams.new "Severe Aliasing" 10 8 32)).2.2.2 ≠
      ((create_sine_wave (SignalParams.new "Severe Aliasing" 10 8 32)).2.2.1).map
        (fun t => quantize ((2 : ℚ) ^ (32 : ℕ)) (damped_sine 10 t)) := by
  intro hEq
  rw [sample_y_eq_map, List.map_inj_left] at hEq
  have hmem : (1 / 8 : ℚ) ∈
      (create_sine_wave (SignalParams.new "Severe Aliasing" 10 8 32)).2.2.1 := by
    decide
  have h : quantize (amplitude_levels 32) (damped_sine 10 (1 / 8)) =
      quantize ((2 : ℚ) ^ (32 : ℕ)) (damped_sine 10 (1 / 8)) := hEq (1 / 8) hmem
  rw [amplitude_levels_thirtytwo, quantize_zero_levels] at h
  have hraw : (15 / 16 : ℝ) ≤ damped_sine 10 (1 / 8) := by
    unfold damped_sine
    push_cast
    rw [show 2 * Real.pi * (10 : ℝ) * (1 / 8) = Real.pi / 2 + 2 * Real.pi by ring,
      Real.sin_add_two_pi, Real.sin_pi_div_two, mul_one]
    have hexp := Real.add_one_le_exp (-(1 / 2) * (1 / 8 : ℝ))
    nlinarith
  have hpos : 0 < quantize ((2 : ℚ) ^ (32 : ℕ)) (damped_sine 10 (1 / 8)) := by
    unfold quantize
    have hden : (0 : ℝ) < (((2 : ℚ) ^ (32 : ℕ) : ℚ) : ℝ) / 2 := by
      push_cast
      positivity
    refine div_pos ?_ hden
    have harg : (1 : ℝ) ≤ damped_sine 10 (1 / 8) * (((2 : ℚ) ^ (32 : ℕ) : ℚ) : ℝ) / 2 := by
      push_cast
      nlinarith
    have h1 := one_le_f64_round _ harg
    have : (0 : ℤ) < f64_round (damped_sine 10 (1 / 8) * (((2 : ℚ) ^ (32 : ℕ) : ℚ) : ℝ) / 2) := by
      omega
    exact_mod_cast this
  exact absurd h.symm (ne_of_gt hpos)

/-- C1 amended: for every SignalParameters with positive frequency and rate
and `bit_depth` in the representable range `[1, 31]` (not `[1, 32]`: 32
overflows `u32`), the continuous output is the damped sine
`exp(-0.5 t) * sin(2π f t)` evaluated at the continuous time points, and the
sampled output is `round(raw * 2^bit_depth / 2) / (2^bit_depth / 2)` with
`raw` the same damped sine at the sampled time points. -/
theorem synth_formulas (p : SignalParams) (hf : 0 < p.signal_freq)
    (hr : 0 < p.sampling_rate) (hb1 : 1 ≤ p.bit_depth) (hb2 : p.bit_depth ≤ 31) :
    (create_sine_wave p).2.1 =
      ((create_sine_wave p).1).map (fun t => damped_sine p.signal_freq t) ∧
    (create_sine_wave p).2.2.2 = ((create_sine_wave p).2.2.1).map
      (fun t => quantize ((2 : ℚ) ^ p.bit_depth) (damped_sine p.signal_freq t)) := by
  refine ⟨continuous_y_eq_map p, ?_⟩
  rw [sample_y_eq_map, amplitude_levels_eq_pow p.bit_depth hb2]

/-- C1 witness: the formula correspondence instantiated at
`signal_freq = 10, sampling_rate = 24, bit_depth = 16`. -/
theorem synth_formulas_witness :
    0 < (SignalParams.new "Near Nyquist" 10 24 16).signal_freq ∧
    0 < (SignalParams.new "Near Nyquist" 10 24 16).sampling_rate ∧
    1 ≤ (SignalParams.new "Near Nyquist" 10 24 16).bit_depth ∧
    (SignalParams.new "Near Nyquist" 10 24 16).bit_depth ≤ 31 ∧
    ((create_sine_wave (SignalParams.new "Near Nyquist" 10 24 16)).2.1 =
      ((create_sine_wave (SignalParams.new "Near Nyquist" 10 24 16)).1).map
        (fun t => damped_sine (SignalParams.new "Near Nyquist" 10 24 16).signal_freq t) ∧
    (create_sine_wave (SignalParams.new "Near Nyquist" 10 24 16)).2.2.2 =
      ((create_sine_wave (SignalParams.new "Near Nyquist" 10 24 16)).2.2.1).map
        (fun t => quantize ((2 : ℚ) ^ (SignalParams.new "Near Nyquist" 10 24 16).bit_depth)
          (damped_sine (SignalParams.new "Near Nyquist" 10 24 16).signal_freq t))) :=
  ⟨by decide, by decide, by decide, by decide,
    synth_formulas (SignalParams.new "Near Nyquist" 10 24 16)
      (by decide) (by decide) (by decide) (by decide)⟩

end PlotlyrsGraphStudy
